import Mathlib

/-!
Verification of the xoay-config switch/sync core.

Shallow embedding of the main-process modules of the repository:
`src/main/switch-engine.ts`, `src/main/hook-executor.ts`,
`src/main/switch-orchestrator.ts`, the cron scheduler and the anchor-sync
service.  File text is modelled as `List Char`; the JavaScript line
splitting, line-anchored regex matching, JSON values and JS property
access used by those modules are given explicit executable models next to
the definitions that use them.  Host I/O (file system, subprocesses,
timers) is abstracted into explicit function parameters or outcome
values, so every definition stays computable.
-/

namespace Xoay

/-- Model of regex `\s` as it occurs inside one line of a shell file:
space or tab.  The patterns in the source are line-anchored (`^...$` with
the `m` flag), so whitespace is only ever matched within a line. -/
def isWsChar (c : Char) : Bool := c = ' ' || c = '\t'

/-- JavaScript `content.split('\n')` on a character list: always returns
at least one (possibly empty) line.  `'\r'` is treated as an ordinary
character in this model. -/
def splitOnNl : List Char → List (List Char)
  | [] => [[]]
  | c :: cs =>
    if c = '\n' then [] :: splitOnNl cs
    else
      match splitOnNl cs with
      | [] => [[c]]
      | l :: ls => (c :: l) :: ls

/-- Line terminators of ECMAScript regular expressions: LF, CR, LS
(U+2028) and PS (U+2029).  In a multiline pattern `^` matches after any
of them, `$` matches before any of them, and `.` matches none of them. -/
def lineTermChar (c : Char) : Bool :=
  c = '\n' || c = '\r' || c = Char.ofNat 0x2028 || c = Char.ofNat 0x2029

/-- Split content into the maximal line-terminator-free segments a
multiline regex works on, keeping each segment's terminator (`none` for
the final segment) so the original text can be reassembled. -/
def splitSegs : List Char → List (List Char × Option Char)
  | [] => [([], none)]
  | c :: cs =>
    if lineTermChar c then ([], some c) :: splitSegs cs
    else
      match splitSegs cs with
      | [] => [([c], none)]
      | (l, t) :: rest => (c :: l, t) :: rest

/-- Reassemble segments and terminators: the inverse of `splitSegs`. -/
def joinSegs : List (List Char × Option Char) → List Char
  | [] => []
  | (l, t) :: rest =>
    l ++ ((match t with | some c => [c] | none => []) ++ joinSegs rest)

/-- A segment free of line terminators. -/
def segNoTerm (l : List Char) : Prop := ∀ c ∈ l, lineTermChar c = false

/-- Shape of a `splitSegs` image: nonempty, terminator-free segments,
every segment but the last carrying a terminator, the last carrying
none. -/
def segsWF : List (List Char × Option Char) → Prop
  | [] => False
  | [(l, t)] => segNoTerm l ∧ t = none
  | (l, t) :: rest =>
    segNoTerm l ∧ (∃ c, t = some c ∧ lineTermChar c = true) ∧ segsWF rest

/-- Characters that need a char literal workaround. -/
def dquoteChar : Char := Char.ofNat 34

def squoteChar : Char := Char.ofNat 39

def btickChar : Char := Char.ofNat 96

def dollarChar : Char := Char.ofNat 36

def exportWord : List Char := ['e', 'x', 'p', 'o', 'r', 't']

/-- Match a literal character sequence at the head, returning the rest. -/
def dropLit : List Char → List Char → Option (List Char)
  | [], s => some s
  | _ :: _, [] => none
  | p :: ps, c :: cs => if c = p then dropLit ps cs else none

/-- Match `^export\s+NAME=` at the start of one regex segment (a
maximal line-terminator-free run); on success return the text after the
`=` — on such a segment the regex tail `.*$` matches exactly the rest
of the segment, since `.` stops at (and `$` matches before) every line
terminator. -/
def matchExportAt (name line : List Char) : Option (List Char) :=
  match dropLit exportWord line with
  | none => none
  | some rest =>
    match rest with
    | [] => none
    | c :: rest2 =>
      if isWsChar c then
        match dropLit name (rest2.dropWhile isWsChar) with
        | some ('=' :: tail) => some tail
        | _ => none
      else none

/-- One segment matches the uncommented pattern `^export\s+NAME=.*$`. -/
def lineMatchesExport (name line : List Char) : Bool :=
  (matchExportAt name line).isSome

/-- One segment matches the commented pattern `^#\s*export\s+NAME=.*$`. -/
def lineMatchesCommented (name line : List Char) : Bool :=
  match line with
  | '#' :: rest => lineMatchesExport name (rest.dropWhile isWsChar)
  | _ => false

/-- Escaping of one character of the value: backslash, double quote,
dollar and backtick each get a leading backslash (the four sequential
`.replace` calls in the source, fused into one character map — the four
replacements touch disjoint characters, and later passes never rewrite
the backslashes inserted by earlier ones). -/
def escapeChar (c : Char) : List Char :=
  if c = '\\' then ['\\', '\\']
  else if c = dquoteChar then ['\\', dquoteChar]
  else if c = dollarChar then ['\\', dollarChar]
  else if c = btickChar then ['\\', btickChar]
  else [c]

def escapeValue : List Char → List Char
  | [] => []
  | c :: cs => escapeChar c ++ escapeValue cs

/-- The replacement line `export NAME="<escaped value>"`. -/
def exportLineOf (name value : List Char) : List Char :=
  exportWord ++ ' ' :: (name ++ '=' :: dquoteChar :: (escapeValue value ++ [dquoteChar]))

/-- Model of `SwitchEngine.appendLine`: append a line, ensuring exactly one
trailing newline before it. -/
def appendLine (content line : List Char) : List Char :=
  if content = [] then line ++ ['\n']
  else if content.getLast? ≠ some '\n' then content ++ '\n' :: (line ++ ['\n'])
  else content ++ (line ++ ['\n'])

/-- Name validation against `^[A-Za-z_][A-Za-z0-9_]*$`. -/
def isEnvNameStart (c : Char) : Bool := c.isAlpha || c = '_'

def isEnvNameChar (c : Char) : Bool := c.isAlphanum || c = '_'

def isValidEnvName : List Char → Bool
  | [] => false
  | c :: cs => isEnvNameStart c && cs.all isEnvNameChar

/-- ECMAScript GetSubstitution for the replacement string of
`String.replace`: a dollar before a dollar yields one dollar, before an
ampersand the matched text, before a backquote the text preceding the
match, before a single quote the text following the match; every other
dollar sequence is literal (the pattern has no capture groups, so digit
references stay literal, and a backslash has no escaping power inside a
replacement string). -/
def substRepl (matched preceding following : List Char) : List Char → List Char
  | [] => []
  | c :: rest =>
    if c = dollarChar then
      match rest with
      | [] => [c]
      | d :: rest2 =>
        if d = dollarChar then
          dollarChar :: substRepl matched preceding following rest2
        else if d = '&' then
          matched ++ substRepl matched preceding following rest2
        else if d = btickChar then
          preceding ++ substRepl matched preceding following rest2
        else if d = squoteChar then
          following ++ substRepl matched preceding following rest2
        else c :: d :: substRepl matched preceding following rest2
    else c :: substRepl matched preceding following rest

/-- The value contains a dollar directly followed by an ampersand or a
single quote — exactly the value shapes whose image under escaping
leaves an active substitution sequence in the replacement line (the
escaping puts a backslash before backslash, double quote, dollar and
backquote, so a dollar-dollar or dollar-backquote pair in the value is
broken apart and stays literal). -/
def hasDollarSpecial : List Char → Bool
  | c :: d :: rest =>
    (c = dollarChar && (d = '&' || d = squoteChar)) || hasDollarSpecial (d :: rest)
  | _ => false

/-- The replacement string contains an active substitution sequence. -/
def hasReplSpecial : List Char → Bool
  | c :: d :: rest =>
    (c = dollarChar &&
      (d = dollarChar || d = '&' || d = btickChar || d = squoteChar)) ||
      hasReplSpecial (d :: rest)
  | _ => false

/-- The global multiline replace of the uncommented pattern: every
segment matching `^export\s+NAME=.*$` (on a terminator-free segment the
match is the whole segment) is replaced by the substituted replacement;
all other text, terminators included, is kept.  `preceding` carries the
original text before the current position — the match scan runs over
the original string, so the substitution's before/after texts come from
it. -/
def gmReplaceSegs (name repl : List Char) :
    List Char → List (List Char × Option Char) → List Char
  | _, [] => []
  | preceding, (l, t) :: rest =>
    let tchars : List Char := match t with | some c => [c] | none => []
    if lineMatchesExport name l then
      substRepl l preceding (tchars ++ joinSegs rest) repl ++
        (tchars ++ gmReplaceSegs name repl (preceding ++ (l ++ tchars)) rest)
    else
      l ++ (tchars ++ gmReplaceSegs name repl (preceding ++ (l ++ tchars)) rest)

/-- The content rewrite of `executeEnvVar` (after name validation and
file read): if the multiline uncommented pattern matches anywhere,
globally replace every matching segment with the new export line
(honoring the replacement's substitution sequences); otherwise append
the new line (the commented-only case and the not-found case both
append). -/
def executeEnvVarContent (name value content : List Char) : List Char :=
  let exportLine := exportLineOf name value
  let segs := splitSegs content
  if segs.any (fun p => lineMatchesExport name p.1) then
    gmReplaceSegs name exportLine [] segs
  else if segs.any (fun p => lineMatchesCommented name p.1) then
    appendLine content exportLine
  else
    appendLine content exportLine

/-- Model of `executeEnvVar` with the file system abstracted: `disk` is the shell
file's current content (`none` when the file does not exist, which the
source treats as empty).  Returns the content written on success, `none`
when name validation fails and nothing is written. -/
def executeEnvVar (name value : List Char) (disk : Option (List Char)) :
    Option (List Char) :=
  if isValidEnvName name then
    some (executeEnvVarContent name value (disk.getD []))
  else none

/-- String-level wrapper for concrete scenarios. -/
def executeEnvVarStr (name value content : String) : String :=
  String.mk (executeEnvVarContent name.data value.data content.data)

/-- The `AnchorConfig` tagged union. -/
inductive AnchorConfig
  | jsonPath (path value : String)
  | envValue (name value : String)
  | lineContent (line : Int) (value : String)
deriving DecidableEq, Repr

/-- The `ConfigItem` tagged union (`file-replace` / `env-var` / `run-command`). -/
inductive ConfigItem
  | fileReplace (id label : String) (enabled : Bool)
      (targetPath content : String) (anchor : Option AnchorConfig)
  | envVar (id label : String) (enabled : Bool)
      (name value shellFile : String) (anchor : Option AnchorConfig)
  | runCommand (id label : String) (enabled : Bool)
      (command : String) (workingDir : Option String) (timeout : Option Nat)
deriving DecidableEq, Repr

def ConfigItem.id : ConfigItem → String
  | .fileReplace i _ _ _ _ _ => i
  | .envVar i _ _ _ _ _ _ => i
  | .runCommand i _ _ _ _ _ => i

def ConfigItem.enabled : ConfigItem → Bool
  | .fileReplace _ _ e _ _ _ => e
  | .envVar _ _ e _ _ _ _ => e
  | .runCommand _ _ e _ _ _ => e

def ConfigItem.isFileReplace : ConfigItem → Bool
  | .fileReplace .. => true
  | _ => false

def ConfigItem.isEnvVar : ConfigItem → Bool
  | .envVar .. => true
  | _ => false

def ConfigItem.isRunCommand : ConfigItem → Bool
  | .runCommand .. => true
  | _ => false

/-- The `ProfileHook.type` values. -/
inductive HookType
  | preSwitchIn
  | postSwitchIn
  | preSwitchOut
  | postSwitchOut
  | cron
deriving DecidableEq, Repr

structure ProfileHook where
  id : String
  label : String
  enabled : Bool
  type : HookType
  scriptPath : String
  cronIntervalMs : Option Nat := none
  timeout : Option Nat := none
deriving DecidableEq, Repr

structure Profile where
  id : String
  name : String
  presetId : Option String := none
  items : List ConfigItem
  hooks : List ProfileHook := []
  createdAt : String := ""
  updatedAt : String := ""
deriving DecidableEq, Repr

/-- The `ItemResult` record (stdout/stderr of run-command items folded into the
success/error view the Switch Engine's control flow depends on). -/
structure ItemResult where
  itemId : String
  success : Bool
  error : Option String := none
deriving DecidableEq, Repr

/-- One stop-at-first-failure phase loop of `executeSwitch`. -/
structure PhaseRun where
  executed : List ConfigItem
  results : List ItemResult
  failed : Bool
deriving DecidableEq, Repr

def runPhase (exec : ConfigItem → ItemResult) : List ConfigItem → PhaseRun
  | [] => ⟨[], [], false⟩
  | i :: rest =>
    let r := exec i
    if r.success then
      let p := runPhase exec rest
      ⟨i :: p.executed, r :: p.results, p.failed⟩
    else ⟨[i], [r], true⟩

/-- The observable outcome of `executeSwitch`: which items were executed
(in execution order), whether `restoreBackup` was invoked, the collected
`ItemResult`s, and the overall success flag. -/
structure SwitchTrace where
  executed : List ConfigItem
  restored : Bool
  results : List ItemResult
  success : Bool
deriving DecidableEq, Repr

/-- Model of `SwitchEngine.executeSwitch`: filter enabled items, phase A
(file-replace), phase B (env-var, only if A clean), restore on A/B
failure, phase C (run-command, only if A and B clean; its failures do
not restore). -/
def executeSwitch (exec : ConfigItem → ItemResult) (profile : Profile) : SwitchTrace :=
  let enabledItems := profile.items.filter ConfigItem.enabled
  let pA := runPhase exec (enabledItems.filter ConfigItem.isFileReplace)
  let pB := if pA.failed then ⟨[], [], false⟩
            else runPhase exec (enabledItems.filter ConfigItem.isEnvVar)
  let failedAB := pA.failed || pB.failed
  let pC := if failedAB then ⟨[], [], false⟩
            else runPhase exec (enabledItems.filter ConfigItem.isRunCommand)
  { executed := pA.executed ++ pB.executed ++ pC.executed
    restored := failedAB
    results := pA.results ++ pB.results ++ pC.results
    success := !(failedAB || pC.failed) }

/-- What the body guarded by the `isSwitching` lock would do:
`executeSwitch` either returns a result or throws. -/
inductive EngineOutcome
  | ok (r : SwitchTrace)
  | threw (e : String)
deriving DecidableEq, Repr

/-- Model of `SwitchEngine.switch`: reject when `isSwitching` is already set
(leaving the in-flight call's flag untouched), otherwise run the body
with the flag set and clear it in `finally`, whether the body returned
or threw.  Result: (caller-visible outcome, `isSwitching` after the call
concludes). -/
def engineSwitch (isSwitching : Bool) (outcome : EngineOutcome) :
    Except String SwitchTrace × Bool :=
  if isSwitching then
    (Except.error "Switch operation already in progress", isSwitching)
  else
    match outcome with
    | .ok r => (Except.ok r, false)
    | .threw e => (Except.error e, false)

/-- The `HookActions` record (all fields optional in the source). -/
structure HookActions where
  switchToNextProfile : Option Bool := none
  switchToProfile : Option String := none
  notify : Option String := none
deriving DecidableEq, Repr

/-- The slice of `HookResult` that `processHookActions` reads. -/
structure HookResultM where
  hookId : String
  hookLabel : String
  success : Bool
  actions : Option HookActions := none
deriving DecidableEq, Repr

/-- JS truthiness of an optional string (`undefined` and `""` are falsy). -/
def strTruthy : Option String → Bool
  | some s => !s.isEmpty
  | none => false

/-- JS truthiness of an optional boolean. -/
def boolTruthy : Option Bool → Bool
  | some b => b
  | none => false

/-- Module state of hook-executor.ts read by `processHookActions`. -/
structure AutoSwitchState where
  lastSwitchActionTime : Int
  isSwitching : Bool
  hasHandler : Bool
deriving DecidableEq, Repr

/-- A request forwarded to the registered auto-switch handler. -/
inductive SwitchRequest
  | toProfile (profileId : String) (triggeredBy : String)
  | toNext (triggeredBy : String)
deriving DecidableEq, Repr

/-- The effects of one `processHookActions` call: the forwarded switch
request (if any), the notification sent to the renderer (message, hook
label), and the new `lastSwitchActionTime`. -/
structure HookActionEffects where
  request : Option SwitchRequest
  notification : Option (String × String)
  lastSwitchActionTime : Int
deriving DecidableEq, Repr

def SWITCH_COOLDOWN : Int := 30000

/-- Model of `processHookActions`: early return unless the hook succeeded and
produced actions; switch actions gated on hook type
(`cron`/`post-switch-in`), the orchestrator's in-flight flag, the 30s
cooldown, and a registered handler (in that order, `switchToProfile`
winning over `switchToNextProfile`); `notify` forwarded independently. -/
def processHookActions (st : AutoSwitchState) (now : Int) (result : HookResultM)
    (hookType : HookType) : HookActionEffects :=
  if !result.success then ⟨none, none, st.lastSwitchActionTime⟩
  else
    match result.actions with
    | none => ⟨none, none, st.lastSwitchActionTime⟩
    | some actions =>
      let switchAllowed : Bool :=
        hookType = HookType.cron || hookType = HookType.postSwitchIn
      let wantsSwitch : Bool :=
        boolTruthy actions.switchToNextProfile || strTruthy actions.switchToProfile
      let reqTime : Option SwitchRequest × Int :=
        if switchAllowed && wantsSwitch then
          if st.isSwitching then (none, st.lastSwitchActionTime)
          else if now - st.lastSwitchActionTime < SWITCH_COOLDOWN then
            (none, st.lastSwitchActionTime)
          else if !st.hasHandler then (none, st.lastSwitchActionTime)
          else
            (if strTruthy actions.switchToProfile then
              some (SwitchRequest.toProfile (actions.switchToProfile.getD "")
                result.hookLabel)
            else if boolTruthy actions.switchToNextProfile then
              some (SwitchRequest.toNext result.hookLabel)
            else none, now)
        else (none, st.lastSwitchActionTime)
      let notif : Option (String × String) :=
        if strTruthy actions.notify then
          some (actions.notify.getD "", result.hookLabel)
        else none
      ⟨reqTime.1, notif, reqTime.2⟩

/-- One observable step of `orchestrateSwitch`. -/
inductive OrchStep
  | stopCron
  | hooksRun (t : HookType) (profileId : String)
  | syncRun (profileId : String)
  | engineRun (profileId : String)
  | setActive (profileId : String)
  | startCron (profileId : String)
  | buildTray
deriving DecidableEq, Repr

/-- The step trace of `orchestrateSwitch profileId` once the new profile
was found.  `oldProfile` is the old active profile's id when there is an
active profile and the store still has it (steps 1–4 are skipped
otherwise); `engineSuccess` is the `success` flag of the Switch Engine's
result for the new profile. -/
def orchestrateSwitchTrace (oldProfile : Option String) (engineSuccess : Bool)
    (newId : String) : List OrchStep :=
  (match oldProfile with
   | some oldId =>
     [OrchStep.stopCron, OrchStep.hooksRun HookType.preSwitchOut oldId,
      OrchStep.syncRun oldId, OrchStep.hooksRun HookType.postSwitchOut oldId]
   | none => [])
  ++ [OrchStep.engineRun newId]
  ++ (if engineSuccess then
        [OrchStep.hooksRun HookType.preSwitchIn newId, OrchStep.setActive newId,
         OrchStep.hooksRun HookType.postSwitchIn newId, OrchStep.startCron newId]
      else [])
  ++ [OrchStep.buildTray]

/-- Effect of one step on the store's `activeProfileId` (only
`setActiveProfileId` writes it). -/
def applyStoreStep (active : Option String) (s : OrchStep) : Option String :=
  match s with
  | OrchStep.setActive pid => some pid
  | _ => active

structure CronProfileM where
  name : String
  hooks : List ProfileHook
deriving DecidableEq, Repr

/-- What one cron tick did: whether the hook body was executed (display
merged and actions processed), and whether the tick cleared this hook's
own timer. -/
structure CronTickOutcome where
  executed : Bool
  timerStopped : Bool
deriving DecidableEq, Repr

/-- One tick of the per-hook cron timer registered for `profileId`:
if the scheduler's active profile changed, return (without touching the
timer); if the profile is gone from the store, return; if the hook was
removed or disabled, clear this hook's timer and return; otherwise
execute the hook. -/
def runCronTick (schedulerActive : Option String) (profileId : String)
    (fetch : String → Option CronProfileM) (hookId : String) : CronTickOutcome :=
  if schedulerActive ≠ some profileId then ⟨false, false⟩
  else
    match fetch profileId with
    | none => ⟨false, false⟩
    | some p =>
      match p.hooks.find? (fun h => h.id = hookId) with
      | none => ⟨false, true⟩
      | some h => if !h.enabled then ⟨false, true⟩ else ⟨true, false⟩

inductive Js
  | null
  | bool (b : Bool)
  | num (n : Int)
  | str (s : String)
  | arr (elems : List Js)
  | obj (fields : List (String × Js))

mutual
/-- JavaScript `String(v)` on a JSON value.  `String([a, b])` joins the
elements with commas, rendering `null` elements as the empty string;
`String({...})` is `"[object Object]"`. -/
def jsToString : Js → String
  | Js.null => "null"
  | Js.bool true => "true"
  | Js.bool false => "false"
  | Js.num n => toString n
  | Js.str s => s
  | Js.arr xs => jsArrToString xs
  | Js.obj _ => "[object Object]"

def jsArrToString : List Js → String
  | [] => ""
  | [Js.null] => ""
  | [x] => jsToString x
  | Js.null :: xs => "," ++ jsArrToString xs
  | x :: xs => jsToString x ++ "," ++ jsArrToString xs
end

/-- First field with the given key (parsed objects have unique keys). -/
def lookupField : List (String × Js) → String → Option Js
  | [], _ => none
  | (k, v) :: rest, key => if k = key then some v else lookupField rest key

/-- Digits-only canonical decimal: a string `key` is a JS array index
property exactly when it equals `String(n)` for some `n` (no sign, no
leading zeros). -/
def charsToIndex? (cs : List Char) : Option Nat :=
  if cs ≠ [] ∧ cs.all Char.isDigit ∧ (cs = ['0'] ∨ cs.head? ≠ some '0') then
    some (cs.foldl (fun acc c => acc * 10 + (c.toNat - 48)) 0)
  else none

def parseArrayIndex (key : String) : Option Nat := charsToIndex? key.data

/-- JS property read on an array value: `"length"`, canonical in-range
indices; every other key is `undefined`. -/
def arrProp (xs : List Js) (key : String) : Option Js :=
  if key = "length" then some (Js.num (Int.ofNat xs.length))
  else
    match parseArrayIndex key with
    | some n => xs.get? n
    | none => none

/-- One iteration of the loop in `resolveJsonPath`: the
`null`/`undefined`/`typeof !== 'object'` guard, then `current[key]`.
JS arrays have `typeof 'object'`, so they pass the guard and are indexed
like any other object. -/
def resolveStep (cur : Option Js) (key : String) : Option Js :=
  match cur with
  | none => none
  | some Js.null => none
  | some (Js.bool _) => none
  | some (Js.num _) => none
  | some (Js.str _) => none
  | some (Js.arr xs) => arrProp xs key
  | some (Js.obj fields) => lookupField fields key

/-- Split a path on `'.'` (JavaScript `path.split('.')`). -/
def splitOnDot : List Char → List (List Char)
  | [] => [[]]
  | c :: cs =>
    if c = '.' then [] :: splitOnDot cs
    else
      match splitOnDot cs with
      | [] => [[c]]
      | l :: ls => (c :: l) :: ls

def pathKeys (path : String) : List String :=
  (splitOnDot path.data).map String.mk

/-- Model of `resolveJsonPath(obj, path)` from anchor-sync.ts. -/
def resolveJsonPath (v : Js) (path : String) : Option Js :=
  (pathKeys path).foldl resolveStep (some v)

/-- The walk as the specification words it: only nested objects are
traversed; hitting an array (or anything else non-object) mid-path
yields `undefined`. -/
def resolveStepSpec (cur : Option Js) (key : String) : Option Js :=
  match cur with
  | some (Js.obj fields) => lookupField fields key
  | _ => none

def resolveJsonPathSpec (v : Js) (path : String) : Option Js :=
  (pathKeys path).foldl resolveStepSpec (some v)

/-- The `stripQuotes` step of `extractEnvValue`: drop one pair of wrapping
double or single quotes (JS `slice(1, -1)`, which also collapses the
one-character string `"`). -/
def stripQuotes (v : List Char) : List Char :=
  if (v.head? = some dquoteChar ∧ v.getLast? = some dquoteChar) ∨
     (v.head? = some squoteChar ∧ v.getLast? = some squoteChar) then
    (v.drop 1).dropLast
  else v

/-- Model of `extractEnvValue(content, name)`: right-hand side of the first
uncommented `export NAME=...` match of the multiline pattern (the first
matching regex segment, in string order), wrapping quotes stripped. -/
def extractEnvValue (content name : List Char) : Option (List Char) :=
  match (splitSegs content).findSome? (fun p => matchExportAt name p.1) with
  | none => none
  | some v => some (stripQuotes v)

/-- Model of `checkAnchor(anchor, diskContent)`. -/
def checkAnchor (parse : String → Option Js) (anchor : AnchorConfig)
    (diskContent : String) : Bool :=
  match anchor with
  | AnchorConfig.jsonPath path value =>
    match parse diskContent with
    | none => false
    | some parsed =>
      match resolveJsonPath parsed path with
      | none => false
      | some resolved => jsToString resolved = value
  | AnchorConfig.envValue name value =>
    match extractEnvValue diskContent.data name.data with
    | none => false
    | some v => v = value.data
  | AnchorConfig.lineContent line value =>
    let lines := splitOnNl diskContent.data
    let lineIndex := line - 1
    if lineIndex < 0 ∨ lineIndex ≥ (lines.length : Int) then false
    else lines.get? lineIndex.toNat = some value.data

/-- Variant of `checkAnchor` as the claim words the `json-path` case (arrays not
traversed); the other cases are unchanged. -/
def checkAnchorSpec (parse : String → Option Js) (anchor : AnchorConfig)
    (diskContent : String) : Bool :=
  match anchor with
  | AnchorConfig.jsonPath path value =>
    match parse diskContent with
    | none => false
    | some parsed =>
      match resolveJsonPathSpec parsed path with
      | none => false
      | some resolved => jsToString resolved = value
  | a => checkAnchor parse a diskContent

/-- The item argument of `syncItem`: `FileReplaceItem | EnvVarItem`. -/
inductive SyncableItem
  | fileReplace (id label : String) (enabled : Bool)
      (targetPath content : String) (anchor : Option AnchorConfig)
  | envVar (id label : String) (enabled : Bool)
      (name value shellFile : String) (anchor : Option AnchorConfig)
deriving DecidableEq, Repr

def SyncableItem.id : SyncableItem → String
  | .fileReplace i _ _ _ _ _ => i
  | .envVar i _ _ _ _ _ _ => i

def SyncableItem.anchor : SyncableItem → Option AnchorConfig
  | .fileReplace _ _ _ _ _ a => a
  | .envVar _ _ _ _ _ _ a => a

/-- The file the sync reads: `targetPath` for file-replace, `shellFile` for env-var. -/
def SyncableItem.filePath : SyncableItem → String
  | .fileReplace _ _ _ t _ _ => t
  | .envVar _ _ _ _ _ s _ => s

/-- Model of `isValidAnchorForItem`. -/
def isValidAnchorForItem (item : SyncableItem) : Bool :=
  match item.anchor with
  | none => true
  | some a =>
    match item with
    | SyncableItem.fileReplace .. =>
      match a with
      | AnchorConfig.jsonPath .. => true
      | AnchorConfig.lineContent .. => true
      | _ => false
    | SyncableItem.envVar .. =>
      match a with
      | AnchorConfig.envValue .. => true
      | _ => false

/-- Model of `resolvePath`: expand a leading `~/` against the home directory
(`path.join` modelled as separator concatenation). -/
def resolvePath (home p : String) : String :=
  if p.startsWith "~/" then home ++ "/" ++ (p.drop 2) else p

inductive SyncReason
  | anchorMismatch
  | noChange
  | fileNotFound
  | error
deriving DecidableEq, Repr

/-- The internal `SyncItemResult` (SyncResult plus the `diskContent`
payload `syncProfile` uses and strips). -/
structure SyncItemResult where
  itemId : String
  synced : Bool
  reason : Option SyncReason := none
  error : Option String := none
  diskContent : Option String := none
deriving DecidableEq, Repr

/-- Filesystem snapshot for sync: `none` = file missing, `some (.error e)`
= read fails, `some (.ok content)` = read returns `content`. -/
def FsModel : Type := String → Option (Except String String)

/-- The `json-path` parse pre-check in `syncItem` (its failure is an
`error`, distinct from a later anchor mismatch). -/
def jsonPrecheckFails (parse : String → Option Js) (anchor : AnchorConfig)
    (diskContent : String) : Bool :=
  match anchor with
  | AnchorConfig.jsonPath .. => (parse diskContent).isNone
  | _ => false

/-- Model of `syncItem(item)` with host effects as parameters. -/
def syncItem (parse : String → Option Js) (home : String) (fs : FsModel)
    (item : SyncableItem) : SyncItemResult :=
  match item.anchor with
  | none => { itemId := item.id, synced := false, reason := some SyncReason.noChange }
  | some anchor =>
    if !isValidAnchorForItem item then
      { itemId := item.id, synced := false, reason := some SyncReason.error
        error := some "Invalid anchor type for this item" }
    else
      match fs (resolvePath home item.filePath) with
      | none =>
        { itemId := item.id, synced := false, reason := some SyncReason.fileNotFound }
      | some (Except.error e) =>
        { itemId := item.id, synced := false, reason := some SyncReason.error
          error := some e }
      | some (Except.ok diskContent) =>
        if jsonPrecheckFails parse anchor diskContent then
          { itemId := item.id, synced := false, reason := some SyncReason.error
            error := some "Failed to parse JSON from disk file" }
        else if !checkAnchor parse anchor diskContent then
          { itemId := item.id, synced := false
            reason := some SyncReason.anchorMismatch }
        else
          match item with
          | SyncableItem.fileReplace _ _ _ _ content _ =>
            if diskContent = content then
              { itemId := item.id, synced := false, reason := some SyncReason.noChange }
            else
              { itemId := item.id, synced := true, diskContent := some diskContent }
          | SyncableItem.envVar _ _ _ name value _ _ =>
            match extractEnvValue diskContent.data name.data with
            | none =>
              { itemId := item.id, synced := false, reason := some SyncReason.noChange }
            | some dv =>
              if dv = value.data then
                { itemId := item.id, synced := false
                  reason := some SyncReason.noChange }
              else
                { itemId := item.id, synced := true, diskContent := some diskContent }

/-- Stop-at-first-failure execution order, as the specification words
it: the items strictly before the first failing one, plus that failing
item (the whole list when nothing fails).  Used to state what the phase
loops of `executeSwitch` execute. -/
def phasePrefix (exec : ConfigItem → ItemResult) (items : List ConfigItem) :
    List ConfigItem :=
  items.take (items.findIdx (fun i => !(exec i).success) + 1)

/-! ## Theorems -/

theorem splitSegs_cons_term {c : Char} (hc : lineTermChar c = true) (cs : List Char) :
    splitSegs (c :: cs) = ([], some c) :: splitSegs cs := by
  conv_lhs => unfold splitSegs
  rw [if_pos hc]

theorem splitSegs_cons_nonterm {c : Char} (hc : lineTermChar c = false) {cs : List Char}
    {l : List Char} {t : Option Char} {rest : List (List Char × Option Char)}
    (h : splitSegs cs = (l, t) :: rest) :
    splitSegs (c :: cs) = (c :: l, t) :: rest := by
  unfold splitSegs
  rw [if_neg (by simp [hc]), h]

theorem joinSegs_cons (l : List Char) (t : Option Char)
    (rest : List (List Char × Option Char)) :
    joinSegs ((l, t) :: rest) =
      l ++ ((match t with | some c => [c] | none => []) ++ joinSegs rest) := rfl

theorem splitSegs_ne_nil (cs : List Char) : splitSegs cs ≠ [] := by
  induction cs with
  | nil => simp [splitSegs]
  | cons c cs ih =>
    unfold splitSegs
    by_cases hc : lineTermChar c = true
    · simp [hc]
    · rw [if_neg hc]
      cases hsplit : splitSegs cs with
      | nil => simp
      | cons p ps =>
        obtain ⟨l, t⟩ := p
        simp

theorem mem_splitSegs_noTerm {cs : List Char} {p : List Char × Option Char}
    (h : p ∈ splitSegs cs) : segNoTerm p.1 := by
  induction cs generalizing p with
  | nil =>
    simp only [splitSegs, List.mem_singleton] at h
    subst h
    intro c hc
    simp at hc
  | cons c cs ih =>
    by_cases hc : lineTermChar c = true
    · rw [splitSegs_cons_term hc, List.mem_cons] at h
      rcases h with h | h
      · subst h
        intro x hx
        simp at hx
      · exact ih h
    · have hc2 : lineTermChar c = false := by
        cases hlc : lineTermChar c
        · rfl
        · exact absurd hlc hc
      cases hsplit : splitSegs cs with
      | nil => exact absurd hsplit (splitSegs_ne_nil cs)
      | cons q qs =>
        obtain ⟨l, t⟩ := q
        rw [splitSegs_cons_nonterm hc2 hsplit, List.mem_cons] at h
        rcases h with h | h
        · subst h
          intro x hx
          rcases List.mem_cons.mp hx with rfl | hx
          · exact hc2
          · exact ih (hsplit ▸ List.mem_cons_self (l, t) qs) x hx
        · exact ih (hsplit ▸ List.mem_cons_of_mem (l, t) h)

theorem joinSegs_splitSegs (cs : List Char) : joinSegs (splitSegs cs) = cs := by
  induction cs with
  | nil => rfl
  | cons c cs ih =>
    by_cases hc : lineTermChar c = true
    · rw [splitSegs_cons_term hc, joinSegs_cons, ih]
      rfl
    · have hc2 : lineTermChar c = false := by
        cases hlc : lineTermChar c
        · rfl
        · exact absurd hlc hc
      cases hsplit : splitSegs cs with
      | nil => exact absurd hsplit (splitSegs_ne_nil cs)
      | cons q qs =>
        obtain ⟨l, t⟩ := q
        rw [splitSegs_cons_nonterm hc2 hsplit, joinSegs_cons]
        rw [hsplit, joinSegs_cons] at ih
        rw [List.cons_append, ih]

theorem splitSegs_noTerm_eq {l : List Char} (h : segNoTerm l) :
    splitSegs l = [(l, none)] := by
  induction l with
  | nil => rfl
  | cons c cs ih =>
    have hc : lineTermChar c = false := h c (List.mem_cons_self c cs)
    have hcs : segNoTerm cs := fun x hx => h x (List.mem_cons_of_mem c hx)
    exact splitSegs_cons_nonterm hc (ih hcs)

theorem splitSegs_append_term {l : List Char} (hl : segNoTerm l) {c : Char}
    (hc : lineTermChar c = true) (ys : List Char) :
    splitSegs (l ++ c :: ys) = (l, some c) :: splitSegs ys := by
  induction l with
  | nil => exact splitSegs_cons_term hc ys
  | cons a l2 ih =>
    have ha : lineTermChar a = false := hl a (List.mem_cons_self a l2)
    have hl2 : segNoTerm l2 := fun x hx => hl x (List.mem_cons_of_mem a hx)
    rw [List.cons_append]
    exact splitSegs_cons_nonterm ha (ih hl2)

theorem map_fst_splitSegs_append {c : Char} (hc : lineTermChar c = true)
    (x y : List Char) :
    (splitSegs (x ++ c :: y)).map Prod.fst =
      (splitSegs x).map Prod.fst ++ (splitSegs y).map Prod.fst := by
  induction x with
  | nil =>
    rw [List.nil_append, splitSegs_cons_term hc]
    rfl
  | cons a x2 ih =>
    by_cases ha : lineTermChar a = true
    · rw [List.cons_append, splitSegs_cons_term ha (x2 ++ c :: y),
          splitSegs_cons_term ha x2]
      simp [ih]
    · have ha2 : lineTermChar a = false := by
        cases hlc : lineTermChar a
        · rfl
        · exact absurd hlc ha
      cases hs1 : splitSegs (x2 ++ c :: y) with
      | nil => exact absurd hs1 (splitSegs_ne_nil _)
      | cons q qs =>
        obtain ⟨l, t⟩ := q
        cases hs2 : splitSegs x2 with
        | nil => exact absurd hs2 (splitSegs_ne_nil _)
        | cons r rs =>
          obtain ⟨l2, t2⟩ := r
          rw [List.cons_append, splitSegs_cons_nonterm ha2 hs1,
              splitSegs_cons_nonterm ha2 hs2]
          rw [hs1, hs2] at ih
          simp only [List.map_cons, List.cons_append] at ih ⊢
          injection ih with h1 h2
          rw [h1, h2]

theorem segsWF_splitSegs (cs : List Char) : segsWF (splitSegs cs) := by
  induction cs with
  | nil =>
    exact ⟨fun c hc => absurd hc (List.not_mem_nil c), rfl⟩
  | cons c cs ih =>
    by_cases hc : lineTermChar c = true
    · rw [splitSegs_cons_term hc]
      cases hsplit : splitSegs cs with
      | nil => exact absurd hsplit (splitSegs_ne_nil cs)
      | cons q qs =>
        rw [hsplit] at ih
        exact ⟨fun x hx => absurd hx (List.not_mem_nil x), ⟨c, rfl, hc⟩, ih⟩
    · have hc2 : lineTermChar c = false := by
        cases hlc : lineTermChar c
        · rfl
        · exact absurd hlc hc
      cases hsplit : splitSegs cs with
      | nil => exact absurd hsplit (splitSegs_ne_nil cs)
      | cons q qs =>
        obtain ⟨l, t⟩ := q
        rw [splitSegs_cons_nonterm hc2 hsplit]
        rw [hsplit] at ih
        cases qs with
        | nil =>
          obtain ⟨hno, ht⟩ := ih
          refine ⟨fun x hx => ?_, ht⟩
          rcases List.mem_cons.mp hx with rfl | hx
          · exact hc2
          · exact hno x hx
        | cons r rs =>
          obtain ⟨hno, hex, hwf⟩ := ih
          refine ⟨fun x hx => ?_, hex, hwf⟩
          rcases List.mem_cons.mp hx with rfl | hx
          · exact hc2
          · exact hno x hx

theorem splitSegs_joinSegs :
    ∀ segs : List (List Char × Option Char), segsWF segs →
      splitSegs (joinSegs segs) = segs := by
  intro segs
  induction segs with
  | nil => intro h; exact absurd h (by simp [segsWF])
  | cons p rest ih =>
    intro h
    obtain ⟨l, t⟩ := p
    cases rest with
    | nil =>
      obtain ⟨hno, ht⟩ := h
      subst ht
      show splitSegs (l ++ ([] ++ [])) = [(l, none)]
      simp only [List.nil_append, List.append_nil]
      exact splitSegs_noTerm_eq hno
    | cons q qs =>
      obtain ⟨hno, ⟨c, htc, hterm⟩, hwf⟩ := h
      subst htc
      show splitSegs (l ++ ([c] ++ joinSegs (q :: qs))) = (l, some c) :: q :: qs
      rw [show (([c] ++ joinSegs (q :: qs)) : List Char) = c :: joinSegs (q :: qs) from rfl]
      rw [splitSegs_append_term hno hterm, ih hwf]

theorem segsWF_map (f : List Char × Option Char → List Char) :
    ∀ segs : List (List Char × Option Char), segsWF segs →
      (∀ p ∈ segs, segNoTerm (f p)) →
      segsWF (segs.map (fun p => (f p, p.2))) := by
  intro segs
  induction segs with
  | nil => intro h _; exact absurd h (by simp [segsWF])
  | cons p rest ih =>
    intro h hg
    obtain ⟨l, t⟩ := p
    cases rest with
    | nil =>
      obtain ⟨hno, ht⟩ := h
      exact ⟨hg (l, t) (List.mem_cons_self _ _), ht⟩
    | cons q qs =>
      obtain ⟨hno, hex, hwf⟩ := h
      exact ⟨hg (l, t) (List.mem_cons_self _ _), hex,
        ih hwf (fun r hr => hg r (List.mem_cons_of_mem _ hr))⟩

theorem dropLit_self_append (p rest : List Char) : dropLit p (p ++ rest) = some rest := by
  induction p with
  | nil => rfl
  | cons c cs ih => simp [dropLit, ih]

theorem envNameStart_not_ws {c : Char} (h : isEnvNameStart c = true) :
    isWsChar c = false := by
  cases hws : isWsChar c
  · rfl
  · have : c = ' ' ∨ c = '\t' := by simpa [isWsChar] using hws
    rcases this with rfl | rfl <;> exact absurd h (by decide)

theorem valid_name_noTerm {name : List Char} (h : isValidEnvName name = true) :
    segNoTerm name := by
  cases name with
  | nil => intro c hc; simp at hc
  | cons c cs =>
    simp only [isValidEnvName, Bool.and_eq_true, List.all_eq_true] at h
    intro x hx
    cases hlt : lineTermChar x
    · rfl
    · exfalso
      have hx4 : x = '\n' ∨ x = '\r' ∨ x = Char.ofNat 0x2028 ∨ x = Char.ofNat 0x2029 := by
        simpa [lineTermChar, or_assoc] using hlt
      rcases List.mem_cons.mp hx with rfl | hx
      · rcases hx4 with rfl | rfl | rfl | rfl <;> exact absurd h.1 (by decide)
      · have hax := h.2 x hx
        rcases hx4 with rfl | rfl | rfl | rfl <;> exact absurd hax (by decide)

theorem valid_name_not_dollar {name : List Char} (h : isValidEnvName name = true) :
    ∀ a ∈ name, ¬ a = dollarChar := by
  cases name with
  | nil => intro a ha; simp at ha
  | cons c cs =>
    simp only [isValidEnvName, Bool.and_eq_true, List.all_eq_true] at h
    intro a ha he
    rcases List.mem_cons.mp ha with rfl | ha
    · rw [he] at h
      exact absurd h.1 (by decide)
    · have hax := h.2 a ha
      rw [he] at hax
      exact absurd hax (by decide)

theorem mem_escapeChar {x c : Char} (h : x ∈ escapeChar c) : x = '\\' ∨ x = c := by
  by_cases h1 : c = '\\'
  · subst h1
    rw [escapeChar, if_pos rfl] at h
    simp only [List.mem_cons, List.not_mem_nil, or_false] at h
    rcases h with h | h <;> exact Or.inl h
  · by_cases h2 : c = dquoteChar
    · subst h2
      rw [escapeChar, if_neg h1, if_pos rfl] at h
      simp only [List.mem_cons, List.not_mem_nil, or_false] at h
      rcases h with h | h
      · exact Or.inl h
      · exact Or.inr h
    · by_cases h3 : c = dollarChar
      · subst h3
        rw [escapeChar, if_neg h1, if_neg h2, if_pos rfl] at h
        simp only [List.mem_cons, List.not_mem_nil, or_false] at h
        rcases h with h | h
        · exact Or.inl h
        · exact Or.inr h
      · by_cases h4 : c = btickChar
        · subst h4
          rw [escapeChar, if_neg h1, if_neg h2, if_neg h3, if_pos rfl] at h
          simp only [List.mem_cons, List.not_mem_nil, or_false] at h
          rcases h with h | h
          · exact Or.inl h
          · exact Or.inr h
        · rw [escapeChar, if_neg h1, if_neg h2, if_neg h3, if_neg h4] at h
          simp only [List.mem_cons, List.not_mem_nil, or_false] at h
          exact Or.inr h

theorem mem_escapeValue {x : Char} :
    ∀ {v : List Char}, x ∈ escapeValue v → x = '\\' ∨ x ∈ v := by
  intro v
  induction v with
  | nil => intro h; simp [escapeValue] at h
  | cons c cs ih =>
    intro h
    rw [escapeValue] at h
    rcases List.mem_append.mp h with h | h
    · rcases mem_escapeChar h with h | h
      · exact Or.inl h
      · exact Or.inr (by rw [h]; exact List.mem_cons_self c cs)
    · rcases ih h with h | h
      · exact Or.inl h
      · exact Or.inr (List.mem_cons_of_mem c h)

theorem escapeValue_noTerm {v : List Char} (h : segNoTerm v) :
    segNoTerm (escapeValue v) := by
  intro x hx
  rcases mem_escapeValue hx with rfl | hx
  · decide
  · exact h x hx

theorem exportLine_noTerm {name value : List Char} (hname : isValidEnvName name = true)
    (hval : segNoTerm value) : segNoTerm (exportLineOf name value) := by
  intro x hx
  unfold exportLineOf at hx
  rcases List.mem_append.mp hx with hx | hx
  · simp only [exportWord, List.mem_cons, List.not_mem_nil, or_false] at hx
    rcases hx with rfl | rfl | rfl | rfl | rfl | rfl <;> decide
  · rcases List.mem_cons.mp hx with rfl | hx
    · decide
    · rcases List.mem_append.mp hx with hx | hx
      · exact valid_name_noTerm hname x hx
      · rcases List.mem_cons.mp hx with rfl | hx
        · decide
        · rcases List.mem_cons.mp hx with rfl | hx
          · decide
          · rcases List.mem_append.mp hx with hx | hx
            · exact escapeValue_noTerm hval x hx
            · simp only [List.mem_singleton] at hx
              subst hx
              decide

theorem matchExportAt_shape {name : List Char} (tail : List Char) {c : Char}
    {cs : List Char} (hn : name = c :: cs) (hc : isWsChar c = false) :
    matchExportAt name (exportWord ++ ' ' :: (name ++ '=' :: tail)) = some tail := by
  subst hn
  unfold matchExportAt
  rw [dropLit_self_append]
  have hdw : ((c :: cs) ++ '=' :: tail).dropWhile isWsChar = (c :: cs) ++ '=' :: tail := by
    rw [List.cons_append, List.dropWhile_cons_of_neg (by simp [hc])]
  dsimp only
  rw [if_pos (by decide : isWsChar ' ' = true), hdw, dropLit_self_append]
  rfl

theorem matchExportAt_exportLine {name : List Char} (value : List Char)
    (hname : isValidEnvName name = true) :
    matchExportAt name (exportLineOf name value) =
      some (dquoteChar :: (escapeValue value ++ [dquoteChar])) := by
  obtain ⟨c, cs, hn⟩ : ∃ c cs, name = c :: cs := by
    cases name with
    | nil => exact absurd hname (by decide)
    | cons c cs => exact ⟨c, cs, rfl⟩
  have hstart : isEnvNameStart c = true := by
    rw [hn] at hname
    simp only [isValidEnvName, Bool.and_eq_true, List.all_eq_true] at hname
    exact hname.1
  exact matchExportAt_shape _ hn (envNameStart_not_ws hstart)

theorem lineMatchesExport_exportLine {name : List Char} (value : List Char)
    (hname : isValidEnvName name = true) :
    lineMatchesExport name (exportLineOf name value) = true := by
  rw [lineMatchesExport, matchExportAt_exportLine value hname]
  rfl

theorem lineMatchesExport_nil (name : List Char) :
    lineMatchesExport name [] = false := by
  simp [lineMatchesExport, matchExportAt, exportWord, dropLit]

theorem hasDollarSpecial_tail {x : Char} {xs : List Char}
    (h : hasDollarSpecial (x :: xs) = false) : hasDollarSpecial xs = false := by
  cases xs with
  | nil => rfl
  | cons y ys =>
    rw [hasDollarSpecial] at h
    exact (Bool.or_eq_false_iff.mp h).2

theorem hasReplSpecial_tail {x : Char} {xs : List Char}
    (h : hasReplSpecial (x :: xs) = false) : hasReplSpecial xs = false := by
  cases xs with
  | nil => rfl
  | cons y ys =>
    rw [hasReplSpecial] at h
    exact (Bool.or_eq_false_iff.mp h).2

theorem hasReplSpecial_cons_nonDollar (a : Char) (ha : ¬ a = dollarChar)
    (xs : List Char) : hasReplSpecial (a :: xs) = hasReplSpecial xs := by
  cases xs with
  | nil => rfl
  | cons b ys => simp [hasReplSpecial, ha]

theorem hasReplSpecial_append_nonDollar (xs : List Char)
    (h : ∀ a ∈ xs, ¬ a = dollarChar) (ys : List Char) :
    hasReplSpecial (xs ++ ys) = hasReplSpecial ys := by
  induction xs with
  | nil => rfl
  | cons a xs2 ih =>
    rw [List.cons_append,
        hasReplSpecial_cons_nonDollar a (h a (List.mem_cons_self a xs2)),
        ih (fun b hb => h b (List.mem_cons_of_mem a hb))]

theorem hasReplSpecial_dollar_cons {X : List Char} (hX : hasReplSpecial X = false)
    (hhead : ∀ t, X.head? = some t →
      ¬ t = dollarChar ∧ ¬ t = '&' ∧ ¬ t = btickChar ∧ ¬ t = squoteChar) :
    hasReplSpecial (dollarChar :: X) = false := by
  cases X with
  | nil => rfl
  | cons d ys =>
    obtain ⟨h1, h2, h3, h4⟩ := hhead d rfl
    simp [hasReplSpecial, h1, h2, h3, h4, hX]

theorem substRepl_cons_nonDollar (m p f : List Char) (c : Char)
    (hc : ¬ c = dollarChar) (rest : List Char) :
    substRepl m p f (c :: rest) = c :: substRepl m p f rest := by
  conv_lhs => unfold substRepl
  rw [if_neg hc]

theorem substRepl_dollar_pair (m p f : List Char) (d : Char) (rest2 : List Char)
    (h1 : ¬ d = dollarChar) (h2 : ¬ d = '&') (h3 : ¬ d = btickChar)
    (h4 : ¬ d = squoteChar) :
    substRepl m p f (dollarChar :: d :: rest2) =
      dollarChar :: d :: substRepl m p f rest2 := by
  conv_lhs => unfold substRepl
  rw [if_pos rfl]
  dsimp only
  rw [if_neg h1, if_neg h2, if_neg h3, if_neg h4]

theorem substRepl_literal (m p f : List Char) :
    ∀ repl, hasReplSpecial repl = false →
      substRepl m p f repl = repl := by
  intro repl
  induction repl with
  | nil => intro h2; rfl
  | cons c rest ih =>
    intro h
    by_cases hc : c = dollarChar
    · subst hc
      cases rest with
      | nil => rfl
      | cons d rest2 =>
        rw [hasReplSpecial] at h
        obtain ⟨hp, ht⟩ := Bool.or_eq_false_iff.mp h
        have hd : ¬ d = dollarChar ∧ ¬ d = '&' ∧ ¬ d = btickChar ∧ ¬ d = squoteChar := by
          simpa [and_assoc] using hp
        obtain ⟨h1, h2, h3, h4⟩ := hd
        have ihd := ih ht
        rw [substRepl_cons_nonDollar m p f d h1] at ihd
        injection ihd with h5 h6
        rw [substRepl_dollar_pair m p f d rest2 h1 h2 h3 h4, h6]
    · have ht : hasReplSpecial rest = false := hasReplSpecial_tail h
      rw [substRepl_cons_nonDollar m p f c hc, ih ht]

theorem hasReplSpecial_escape :
    ∀ value : List Char, hasDollarSpecial value = false →
      ∀ tail : List Char, hasReplSpecial tail = false →
        (∀ t, tail.head? = some t →
          ¬ t = dollarChar ∧ ¬ t = '&' ∧ ¬ t = btickChar ∧ ¬ t = squoteChar) →
        hasReplSpecial (escapeValue value ++ tail) = false := by
  intro value
  induction value with
  | nil =>
    intro hv tail htail hhead
    simpa [escapeValue] using htail
  | cons c cs ih =>
    intro hval tail htail hhead
    have hcs : hasDollarSpecial cs = false := hasDollarSpecial_tail hval
    rw [escapeValue, List.append_assoc]
    by_cases h1 : c = '\\'
    · subst h1
      rw [show escapeChar '\\' = ['\\', '\\'] from by decide]
      simp only [List.cons_append, List.nil_append]
      rw [hasReplSpecial_cons_nonDollar '\\' (by decide),
          hasReplSpecial_cons_nonDollar '\\' (by decide)]
      exact ih hcs tail htail hhead
    · by_cases h2 : c = dquoteChar
      · subst h2
        rw [show escapeChar dquoteChar = ['\\', dquoteChar] from by decide]
        simp only [List.cons_append, List.nil_append]
        rw [hasReplSpecial_cons_nonDollar '\\' (by decide),
            hasReplSpecial_cons_nonDollar dquoteChar (by decide)]
        exact ih hcs tail htail hhead
      · by_cases h3 : c = dollarChar
        · subst h3
          rw [show escapeChar dollarChar = ['\\', dollarChar] from by decide]
          simp only [List.cons_append, List.nil_append]
          rw [hasReplSpecial_cons_nonDollar '\\' (by decide)]
          apply hasReplSpecial_dollar_cons
          · exact ih hcs tail htail hhead
          · intro t htf
            cases cs with
            | nil =>
              rw [show escapeValue [] = ([] : List Char) from rfl,
                  List.nil_append] at htf
              exact hhead t htf
            | cons c2 cs2 =>
              have hpair : ¬ c2 = '&' ∧ ¬ c2 = squoteChar := by
                rw [hasDollarSpecial] at hval
                have hp := (Bool.or_eq_false_iff.mp hval).1
                simpa using hp
              rw [escapeValue, List.append_assoc] at htf
              by_cases g1 : c2 = '\\'
              · subst g1
                rw [show escapeChar '\\' = ['\\', '\\'] from by decide] at htf
                simp only [List.cons_append, List.head?_cons, Option.some.injEq] at htf
                subst htf
                exact ⟨by decide, by decide, by decide, by decide⟩
              · by_cases g2 : c2 = dquoteChar
                · subst g2
                  rw [show escapeChar dquoteChar = ['\\', dquoteChar] from by decide] at htf
                  simp only [List.cons_append, List.head?_cons, Option.some.injEq] at htf
                  subst htf
                  exact ⟨by decide, by decide, by decide, by decide⟩
                · by_cases g3 : c2 = dollarChar
                  · subst g3
                    rw [show escapeChar dollarChar = ['\\', dollarChar] from by decide] at htf
                    simp only [List.cons_append, List.head?_cons, Option.some.injEq] at htf
                    subst htf
                    exact ⟨by decide, by decide, by decide, by decide⟩
                  · by_cases g4 : c2 = btickChar
                    · subst g4
                      rw [show escapeChar btickChar = ['\\', btickChar] from by decide] at htf
                      simp only [List.cons_append, List.head?_cons, Option.some.injEq] at htf
                      subst htf
                      exact ⟨by decide, by decide, by decide, by decide⟩
                    · rw [show escapeChar c2 = [c2] from by
                          rw [escapeChar, if_neg g1, if_neg g2, if_neg g3, if_neg g4]] at htf
                      simp only [List.cons_append, List.nil_append, List.head?_cons,
                        Option.some.injEq] at htf
                      subst htf
                      exact ⟨g3, hpair.1, g4, hpair.2⟩
        · by_cases h4 : c = btickChar
          · subst h4
            rw [show escapeChar btickChar = ['\\', btickChar] from by decide]
            simp only [List.cons_append, List.nil_append]
            rw [hasReplSpecial_cons_nonDollar '\\' (by decide),
                hasReplSpecial_cons_nonDollar btickChar (by decide)]
            exact ih hcs tail htail hhead
          · rw [show escapeChar c = [c] from by
                rw [escapeChar, if_neg h1, if_neg h2, if_neg h3, if_neg h4]]
            simp only [List.cons_append, List.nil_append]
            rw [hasReplSpecial_cons_nonDollar c h3]
            exact ih hcs tail htail hhead

theorem hasReplSpecial_exportLine {name value : List Char}
    (hname : isValidEnvName name = true) (hspec : hasDollarSpecial value = false) :
    hasReplSpecial (exportLineOf name value) = false := by
  unfold exportLineOf
  rw [hasReplSpecial_append_nonDollar exportWord (by decide)]
  rw [hasReplSpecial_cons_nonDollar ' ' (by decide)]
  rw [hasReplSpecial_append_nonDollar name (valid_name_not_dollar hname)]
  rw [hasReplSpecial_cons_nonDollar '=' (by decide)]
  rw [hasReplSpecial_cons_nonDollar dquoteChar (by decide)]
  exact hasReplSpecial_escape value hspec [dquoteChar] rfl
    (fun t ht => by
      simp only [List.head?_cons, Option.some.injEq] at ht
      subst ht
      exact ⟨by decide, by decide, by decide, by decide⟩)

theorem gmReplaceSegs_literal (name repl : List Char)
    (hrepl : hasReplSpecial repl = false) :
    ∀ (preceding : List Char) (segs : List (List Char × Option Char)),
      gmReplaceSegs name repl preceding segs =
        joinSegs (segs.map
          (fun p => (if lineMatchesExport name p.1 then repl else p.1, p.2))) := by
  intro preceding segs
  induction segs generalizing preceding with
  | nil => rfl
  | cons p rest ih =>
    obtain ⟨l, t⟩ := p
    simp only [gmReplaceSegs]
    by_cases hm : lineMatchesExport name l = true
    · rw [if_pos hm, substRepl_literal _ _ _ repl hrepl, ih]
      simp [List.map_cons, joinSegs_cons, hm]
    · rw [if_neg hm, ih]
      simp [List.map_cons, joinSegs_cons, hm]

theorem executeEnvVarContent_replace (name value content : List Char)
    (hU : (splitSegs content).any (fun p => lineMatchesExport name p.1) = true) :
    executeEnvVarContent name value content =
      gmReplaceSegs name (exportLineOf name value) [] (splitSegs content) := by
  simp only [executeEnvVarContent]
  rw [if_pos hU]

theorem executeEnvVarContent_append (name value content : List Char)
    (hU : (splitSegs content).any (fun p => lineMatchesExport name p.1) = false) :
    executeEnvVarContent name value content =
      appendLine content (exportLineOf name value) := by
  simp only [executeEnvVarContent]
  rw [if_neg (by simp [hU]), ite_self]

theorem map_fst_splitSegs_of_getLast_nl {content : List Char}
    (h : content.getLast? = some '\n') :
    (splitSegs content).map Prod.fst =
      (splitSegs content.dropLast).map Prod.fst ++ [[]] := by
  have hdl : content.dropLast ++ ['\n'] = content :=
    List.dropLast_append_getLast? '\n' h
  conv_lhs => rw [← hdl]
  rw [map_fst_splitSegs_append (by decide)]
  rfl

theorem map_fst_splitSegs_appendLine (content line : List Char)
    (hline : segNoTerm line) :
    (splitSegs (appendLine content line)).map Prod.fst =
      (if content = [] then []
       else if content.getLast? ≠ some '\n' then (splitSegs content).map Prod.fst
       else (splitSegs content.dropLast).map Prod.fst) ++ [line, []] := by
  have hnl : lineTermChar '\n' = true := by decide
  have hline2 : (splitSegs (line ++ ['\n'])).map Prod.fst = [line, []] := by
    rw [splitSegs_append_term hline hnl]
    rfl
  unfold appendLine
  by_cases h0 : content = []
  · rw [if_pos h0, if_pos h0, hline2]
    rfl
  · rw [if_neg h0, if_neg h0]
    by_cases h1 : content.getLast? ≠ some '\n'
    · rw [if_pos h1, if_pos h1, map_fst_splitSegs_append hnl, hline2]
    · rw [if_neg h1, if_neg h1]
      push_neg at h1
      have hdl : content.dropLast ++ ['\n'] = content :=
        List.dropLast_append_getLast? '\n' h1
      calc (splitSegs (content ++ (line ++ ['\n']))).map Prod.fst
          = (splitSegs (content.dropLast ++ '\n' :: (line ++ ['\n']))).map Prod.fst := by
            rw [← hdl]; simp
        _ = (splitSegs content.dropLast).map Prod.fst ++ [line, []] := by
            rw [map_fst_splitSegs_append hnl, hline2]

theorem list_map_fix {α : Type} (f : α → α) (l : List α) (h : ∀ a ∈ l, f a = a) :
    l.map f = l := by
  induction l with
  | nil => rfl
  | cons a as ih =>
    rw [List.map_cons, h a (List.mem_cons_self a as),
        ih (fun x hx => h x (List.mem_cons_of_mem a hx))]

/-- After one application of the env-var rewrite, every terminator-free
segment of the file either matches nothing or is exactly the new export
line, and at least one segment matches. -/
theorem executeEnvVarContent_segs (name value content : List Char)
    (hname : isValidEnvName name = true) (hterm : segNoTerm value)
    (hspec : hasDollarSpecial value = false) :
    (splitSegs (executeEnvVarContent name value content)).any
        (fun p => lineMatchesExport name p.1) = true ∧
    ∀ l ∈ (splitSegs (executeEnvVarContent name value content)).map Prod.fst,
      lineMatchesExport name l = true → l = exportLineOf name value := by
  have hEm : lineMatchesExport name (exportLineOf name value) = true :=
    lineMatchesExport_exportLine value hname
  have hEnl : segNoTerm (exportLineOf name value) := exportLine_noTerm hname hterm
  by_cases hU : (splitSegs content).any (fun p => lineMatchesExport name p.1) = true
  · rw [executeEnvVarContent_replace name value content hU,
        gmReplaceSegs_literal name _ (hasReplSpecial_exportLine hname hspec)
          [] (splitSegs content)]
    have hWF : segsWF ((splitSegs content).map
        (fun p => (if lineMatchesExport name p.1 then exportLineOf name value
                   else p.1, p.2))) := by
      refine segsWF_map
        (fun p => if lineMatchesExport name p.1 then exportLineOf name value
                  else p.1)
        (splitSegs content) (segsWF_splitSegs content) ?_
      intro p hp
      show segNoTerm (if lineMatchesExport name p.1 then exportLineOf name value
                      else p.1)
      by_cases hm : lineMatchesExport name p.1 = true
      · rw [if_pos hm]
        exact hEnl
      · rw [if_neg hm]
        exact mem_splitSegs_noTerm hp
    rw [splitSegs_joinSegs _ hWF]
    constructor
    · rcases List.any_eq_true.mp hU with ⟨p, hp, hm⟩
      refine List.any_eq_true.mpr
        ⟨(exportLineOf name value, p.2), List.mem_map.mpr ⟨p, hp, by simp [hm]⟩, hEm⟩
    · intro l hl hml
      rw [List.map_map] at hl
      rcases List.mem_map.mp hl with ⟨p, hp, hfp⟩
      by_cases hm : lineMatchesExport name p.1 = true
      · rw [← hfp]
        simp [Function.comp, hm]
      · rw [← hfp] at hml
        simp only [Function.comp, hm] at hml
        exact absurd hml (by simp [hm])
  · have hU2 : (splitSegs content).any (fun p => lineMatchesExport name p.1) = false :=
      Bool.eq_false_iff.mpr hU
    have hnom : ∀ l ∈ (splitSegs content).map Prod.fst,
        lineMatchesExport name l = false := by
      intro l hl
      rcases List.mem_map.mp hl with ⟨p, hp, hfp⟩
      refine Bool.eq_false_iff.mpr (fun hm => hU (List.any_eq_true.mpr ⟨p, hp, ?_⟩))
      rw [hfp]
      exact hm
    have hfst := map_fst_splitSegs_appendLine content (exportLineOf name value) hEnl
    rw [executeEnvVarContent_append name value content hU2]
    constructor
    · have hEin : exportLineOf name value ∈
          (splitSegs (appendLine content (exportLineOf name value))).map Prod.fst := by
        rw [hfst]
        simp
      rcases List.mem_map.mp hEin with ⟨p, hp, hfp⟩
      refine List.any_eq_true.mpr ⟨p, hp, ?_⟩
      rw [hfp]
      exact hEm
    · intro l hl hml
      rw [hfst] at hl
      rcases List.mem_append.mp hl with hl | hl
      · exfalso
        have hlc : l ∈ (splitSegs content).map Prod.fst := by
          by_cases h0 : content = []
          · rw [if_pos h0] at hl
            simp at hl
          · rw [if_neg h0] at hl
            by_cases h1 : content.getLast? ≠ some '\n'
            · rwa [if_pos h1] at hl
            · rw [if_neg h1] at hl
              push_neg at h1
              rw [map_fst_splitSegs_of_getLast_nl h1]
              exact List.mem_append_left _ hl
        exact absurd hml (by simp [hnom l hlc])
      · rcases List.mem_cons.mp hl with rfl | hl
        · rfl
        · rcases List.mem_cons.mp hl with rfl | hl
          · exact absurd hml (by simp [lineMatchesExport_nil])
          · simp at hl

/-- A file in that shape is a fixed point of the rewrite, as long as the
export line carries no active replacement sequence. -/
theorem executeEnvVarContent_fix (name value content : List Char)
    (hrepl : hasReplSpecial (exportLineOf name value) = false)
    (hany : (splitSegs content).any (fun p => lineMatchesExport name p.1) = true)
    (hall : ∀ l ∈ (splitSegs content).map Prod.fst,
      lineMatchesExport name l = true → l = exportLineOf name value) :
    executeEnvVarContent name value content = content := by
  rw [executeEnvVarContent_replace name value content hany,
      gmReplaceSegs_literal name _ hrepl [] (splitSegs content)]
  have hmap : (splitSegs content).map
      (fun p => (if lineMatchesExport name p.1 then exportLineOf name value
                 else p.1, p.2)) =
      splitSegs content := by
    apply list_map_fix
    intro p hp
    have hcond : (if lineMatchesExport name p.1 then exportLineOf name value
        else p.1) = p.1 := by
      by_cases hm : lineMatchesExport name p.1 = true
      · rw [if_pos hm]
        exact (hall p.1 (List.mem_map_of_mem _ hp) hm).symm
      · rw [if_neg hm]
    rw [hcond]
  rw [hmap, joinSegs_splitSegs]

theorem runPhase_failed (exec : ConfigItem → ItemResult) (items : List ConfigItem) :
    (runPhase exec items).failed = items.any (fun i => !(exec i).success) := by
  induction items with
  | nil => rfl
  | cons i rest ih =>
    rw [runPhase]
    by_cases hs : (exec i).success = true
    · simp [hs, ih]
    · simp only [Bool.not_eq_true] at hs
      simp [hs]

theorem runPhase_executed (exec : ConfigItem → ItemResult) (items : List ConfigItem) :
    (runPhase exec items).executed =
      items.take (items.findIdx (fun i => !(exec i).success) + 1) := by
  induction items with
  | nil => rfl
  | cons i rest ih =>
    rw [runPhase, List.findIdx_cons]
    by_cases hs : (exec i).success = true
    · simp [hs, ih]
    · simp only [Bool.not_eq_true] at hs
      simp [hs]

theorem runPhase_executed_subset (exec : ConfigItem → ItemResult)
    (items : List ConfigItem) :
    ∀ i ∈ (runPhase exec items).executed, i ∈ items := by
  induction items with
  | nil => intro i h; exact absurd h (by simp [runPhase])
  | cons a rest ih =>
    intro i h
    rw [runPhase] at h
    by_cases hs : (exec a).success = true
    · simp only [hs, if_pos] at h
      rcases List.mem_cons.mp h with he | hm
      · exact he ▸ List.mem_cons_self a rest
      · exact List.mem_cons_of_mem a (ih i hm)
    · simp only [Bool.not_eq_true] at hs
      simp only [hs] at h
      simp at h
      exact h ▸ List.mem_cons_self a rest

/-! ## Claim theorems -/

/-- C2: a `switch` call while another switch is in progress fails
immediately with the concurrency error without executing anything (the
outcome of the body is never consulted) and leaves the in-flight flag
alone; whatever the body does — return or throw — the flag is false when
the attempt concludes, so a subsequent call behaves exactly like a call
from idle. -/
theorem engineSwitch_single_flight (o o' : EngineOutcome) :
    engineSwitch true o = (Except.error "Switch operation already in progress", true) ∧
    engineSwitch true o = engineSwitch true o' ∧
    (engineSwitch false o).2 = false ∧
    engineSwitch (engineSwitch false o).2 o' = engineSwitch false o' := by
  cases o <;> cases o' <;> simp [engineSwitch]

/-- C9: applying `env-var{name:"FOO", value:"new"}` to a shell file whose
whole content is the single commented line `#export FOO=old` leaves the
commented line untouched and appends the uncommented line
`export FOO="new"`, so the file ends up with both lines. -/
theorem envvar_commented_not_clobbered :
    executeEnvVar "FOO".data "new".data (some "#export FOO=old".data) =
      some "#export FOO=old\nexport FOO=\"new\"\n".data ∧
    executeEnvVarStr "FOO" "new" "#export FOO=old" =
      "#export FOO=old\nexport FOO=\"new\"\n" := by
  decide

/-- C10: for a `HookResult` whose `success` flag is false,
`processHookActions` does nothing at all: no switch request is forwarded,
no notification is emitted, and the cooldown timestamp is unchanged, even
when the result carries actions. -/
theorem processHookActions_failed_noop (st : AutoSwitchState) (now : Int)
    (result : HookResultM) (hookType : HookType) (h : result.success = false) :
    processHookActions st now result hookType =
      ⟨none, none, st.lastSwitchActionTime⟩ := by
  simp [processHookActions, h]

/-- Witness for C10 at a concrete failed result that carries actions. -/
theorem processHookActions_failed_noop_witness :
    processHookActions ⟨0, false, true⟩ 100
      ⟨"h1", "quota", false, some ⟨some true, none, some "hello"⟩⟩ HookType.cron =
      ⟨none, none, 0⟩ :=
  processHookActions_failed_noop ⟨0, false, true⟩ 100
    ⟨"h1", "quota", false, some ⟨some true, none, some "hello"⟩⟩ HookType.cron rfl

/-- C4 (amended): applying the same env-var item twice in a row yields
identical content after the second application as after the first —
provided the value contains no line-terminator character (LF, CR,
U+2028 or U+2029) and no "$&" or "$'" pair.  (Claim C4 as stated, for
every value, is refuted by `envvar_newline_value_not_idem`: a value
with an embedded newline produces a multi-segment export line of which
only the first segment is matched and replaced on the next
application.  The other excluded shapes break idempotence the same
way: a CR splits the written line just as a LF does, and a "$&" or
"$'" surviving into the replacement line is re-expanded to the matched
line or the rest of the file on the next application.) -/
theorem envvar_idempotent (name value : List Char) (disk : Option (List Char))
    (c1 : List Char) (hname : isValidEnvName name = true)
    (hterm : segNoTerm value) (hspec : hasDollarSpecial value = false)
    (h1 : executeEnvVar name value disk = some c1) :
    executeEnvVar name value (some c1) = some c1 := by
  rw [executeEnvVar, if_pos hname] at h1
  have hc1 : c1 = executeEnvVarContent name value (disk.getD []) :=
    (Option.some_inj.mp h1).symm
  obtain ⟨hany, hall⟩ :=
    executeEnvVarContent_segs name value (disk.getD []) hname hterm hspec
  rw [executeEnvVar, if_pos hname]
  subst hc1
  have hgd : (some (executeEnvVarContent name value (disk.getD []))).getD ([] : List Char) =
      executeEnvVarContent name value (disk.getD []) := rfl
  rw [hgd]
  exact congrArg some (executeEnvVarContent_fix name value _
    (hasReplSpecial_exportLine hname hspec) hany hall)

/-- Witness for C4 at a concrete item and file. -/
theorem envvar_idempotent_witness :
    executeEnvVar "FOO".data "new".data
      (some (executeEnvVarContent "FOO".data "new".data "PATH=1".data)) =
      some (executeEnvVarContent "FOO".data "new".data "PATH=1".data) :=
  envvar_idempotent "FOO".data "new".data (some "PATH=1".data) _
    (by decide)
    (by show ∀ c ∈ "new".data, lineTermChar c = false
        decide)
    (by decide) rfl

/-- Counterexample to C4 as stated: with the valid name `FOO` and the
value `"a\nb"`, the second application does not reproduce the first
(each pass rewrites only the first segment of the previously appended
multi-line export line and re-appends nothing — the file keeps
growing). -/
theorem envvar_newline_value_not_idem :
    isValidEnvName "FOO".data = true ∧
    executeEnvVarContent "FOO".data "a\nb".data
        (executeEnvVarContent "FOO".data "a\nb".data []) ≠
      executeEnvVarContent "FOO".data "a\nb".data [] := by
  decide

/-- C8 (amended): on a cron tick, if the globally active profile changed
since the timer was registered the tick returns without executing — but
also without stopping the timer; if the profile is gone from the store
the tick likewise just returns; if the hook was removed or disabled,
that specific hook's timer is stopped and the tick returns without
executing; otherwise the hook is executed (display merged, actions
processed).  (Claim C8 as stated — timer stopped also on
active-profile change — is refuted by `cronTick_profile_changed_no_stop`.) -/
theorem runCronTick_guards (schedulerActive : Option String) (profileId : String)
    (fetch : String → Option CronProfileM) (hookId : String) :
    (schedulerActive ≠ some profileId →
      runCronTick schedulerActive profileId fetch hookId = ⟨false, false⟩) ∧
    (schedulerActive = some profileId → fetch profileId = none →
      runCronTick schedulerActive profileId fetch hookId = ⟨false, false⟩) ∧
    (∀ p, schedulerActive = some profileId → fetch profileId = some p →
      p.hooks.find? (fun h => h.id = hookId) = none →
      runCronTick schedulerActive profileId fetch hookId = ⟨false, true⟩) ∧
    (∀ p h, schedulerActive = some profileId → fetch profileId = some p →
      p.hooks.find? (fun h => h.id = hookId) = some h → h.enabled = false →
      runCronTick schedulerActive profileId fetch hookId = ⟨false, true⟩) ∧
    (∀ p h, schedulerActive = some profileId → fetch profileId = some p →
      p.hooks.find? (fun h => h.id = hookId) = some h → h.enabled = true →
      runCronTick schedulerActive profileId fetch hookId = ⟨true, false⟩) := by
  refine ⟨?_, ?_, ?_, ?_, ?_⟩
  · intro hne
    rw [runCronTick, if_pos hne]
  · intro heq hf
    rw [runCronTick, if_neg (by simp [heq]), hf]
  · intro p heq hf hfind
    rw [runCronTick, if_neg (by simp [heq]), hf]
    simp only [hfind]
  · intro p h heq hf hfind hdis
    rw [runCronTick, if_neg (by simp [heq]), hf]
    simp only [hfind, hdis]
    rfl
  · intro p h heq hf hfind hen
    rw [runCronTick, if_neg (by simp [heq]), hf]
    simp only [hfind, hen]
    rfl

/-- Witness for C8 (amended) at a concrete disabled hook. -/
theorem runCronTick_guards_witness :
    runCronTick (some "p1") "p1"
      (fun _ => some ⟨"P", [⟨"h1", "lbl", false, HookType.cron, "s.js", none, none⟩]⟩)
      "h1" = ⟨false, true⟩ :=
  (runCronTick_guards (some "p1") "p1"
      (fun _ => some ⟨"P", [⟨"h1", "lbl", false, HookType.cron, "s.js", none, none⟩]⟩)
      "h1").2.2.2.1
    ⟨"P", [⟨"h1", "lbl", false, HookType.cron, "s.js", none, none⟩]⟩
    ⟨"h1", "lbl", false, HookType.cron, "s.js", none, none⟩ rfl rfl (by decide) rfl

/-- Counterexample to C8 as stated: the active profile has changed
(scheduler active profile `p2`, timer registered for `p1`, hook still
present and enabled), the tick skips execution but does NOT stop the
timer — the claim requires the timer to be stopped here. -/
theorem cronTick_profile_changed_no_stop :
    runCronTick (some "p2") "p1"
      (fun _ => some ⟨"P", [⟨"h1", "lbl", true, HookType.cron, "s.js", none, none⟩]⟩)
      "h1" = ⟨false, false⟩ ∧
    (runCronTick (some "p2") "p1"
      (fun _ => some ⟨"P", [⟨"h1", "lbl", true, HookType.cron, "s.js", none, none⟩]⟩)
      "h1").timerStopped ≠ true := by
  decide

/-- Counterexample to C7 as stated: on disk content `{"a":[7]}` (parsed
to the corresponding JSON value) with anchor path `a.0` and value `"7"`,
the code resolves the array element — JS arrays are `typeof 'object'`
and are indexed by numeric string keys — and `checkAnchor` returns true,
while the claimed walk (arrays not traversed, mid-path array yields
undefined) returns false. -/
theorem checkAnchor_array_traversal :
    checkAnchor (fun _ => some (Js.obj [("a", Js.arr [Js.num 7])]))
        (AnchorConfig.jsonPath "a.0" "7") "\x7b\"a\":[7]\x7d" = true ∧
    checkAnchorSpec (fun _ => some (Js.obj [("a", Js.arr [Js.num 7])]))
        (AnchorConfig.jsonPath "a.0" "7") "\x7b\"a\":[7]\x7d" = false := by
  decide

/-- C7 (amended): `checkAnchor` with a `json-path` anchor returns false
when the disk content fails to parse; otherwise it walks the
dot-separated key path step by step, where an object step looks up the
key, an array step is traversed by JS string property access (`length`
and canonical in-range numeric indices; any other key yields undefined),
and null or a primitive mid-path yields undefined; the result is true
exactly when the walk resolves to a defined value whose stringification
equals `anchor.value`. -/
theorem checkAnchor_jsonPath_spec (parse : String → Option Js)
    (path value diskContent : String) :
    (checkAnchor parse (AnchorConfig.jsonPath path value) diskContent = true ↔
      ∃ v r, parse diskContent = some v ∧ resolveJsonPath v path = some r ∧
        jsToString r = value) ∧
    (∀ xs key, resolveStep (some (Js.arr xs)) key =
      (if key = "length" then some (Js.num (Int.ofNat xs.length))
       else
         match parseArrayIndex key with
         | some n => xs.get? n
         | none => none)) ∧
    (∀ fields key, resolveStep (some (Js.obj fields)) key = lookupField fields key) ∧
    (∀ key, resolveStep (some Js.null) key = none) ∧
    (∀ b key, resolveStep (some (Js.bool b)) key = none) ∧
    (∀ n key, resolveStep (some (Js.num n)) key = none) ∧
    (∀ s key, resolveStep (some (Js.str s)) key = none) ∧
    (∀ key, resolveStep none key = none) := by
  refine ⟨?_, fun xs key => rfl, fun fields key => rfl, fun key => rfl,
    fun b key => rfl, fun n key => rfl, fun s key => rfl, fun key => rfl⟩
  rw [checkAnchor]
  constructor
  · intro h
    cases hp : parse diskContent with
    | none => rw [hp] at h; simp at h
    | some v =>
      rw [hp] at h
      dsimp only at h
      cases hr : resolveJsonPath v path with
      | none => rw [hr] at h; simp at h
      | some r =>
        rw [hr] at h
        dsimp only at h
        exact ⟨v, r, rfl, hr, by simpa using h⟩
  · rintro ⟨v, r, hp, hr, hs⟩
    rw [hp]
    dsimp only
    rw [hr]
    dsimp only
    simpa using hs

/-- C6: in `orchestrateSwitch`, the active-profile pointer is set to the
new profile's id exactly when the Switch Engine result for the new
profile has `success = true` (replaying the trace against any prior
store state proves the pointer is untouched on failure), and the
`pre-switch-in` hooks, `post-switch-in` hooks and cron start likewise
happen exactly on success, all for the new profile's id. -/
theorem orchestrateSwitch_active_pointer (oldProfile : Option String)
    (engineSuccess : Bool) (newId : String) (active0 : Option String) :
    ((orchestrateSwitchTrace oldProfile engineSuccess newId).foldl applyStoreStep active0 =
      if engineSuccess then some newId else active0) ∧
    (∀ p, OrchStep.setActive p ∈ orchestrateSwitchTrace oldProfile engineSuccess newId ↔
      (engineSuccess = true ∧ p = newId)) ∧
    (∀ p, OrchStep.hooksRun HookType.preSwitchIn p ∈
        orchestrateSwitchTrace oldProfile engineSuccess newId ↔
      (engineSuccess = true ∧ p = newId)) ∧
    (∀ p, OrchStep.hooksRun HookType.postSwitchIn p ∈
        orchestrateSwitchTrace oldProfile engineSuccess newId ↔
      (engineSuccess = true ∧ p = newId)) ∧
    (∀ p, OrchStep.startCron p ∈ orchestrateSwitchTrace oldProfile engineSuccess newId ↔
      (engineSuccess = true ∧ p = newId)) := by
  cases oldProfile <;> cases engineSuccess <;>
    simp [orchestrateSwitchTrace, applyStoreStep]

/-- C5: a hook-requested switch action is forwarded to the auto-switch
handler exactly when the hook succeeded and asked for a switch, the
triggering hook's type is `cron` or `post-switch-in`, no switch is in
flight, the 30s cooldown since the last honored auto-switch has elapsed,
and a handler is registered; and the cooldown clock advances exactly
when a request is honored, so a dropped request leaves no state behind
(nothing is queued for later). -/
theorem hookAction_switch_gating (st : AutoSwitchState) (now : Int)
    (result : HookResultM) (hookType : HookType) :
    ((processHookActions st now result hookType).request.isSome = true ↔
      (result.success = true ∧
       ∃ a, result.actions = some a ∧
         (boolTruthy a.switchToNextProfile = true ∨ strTruthy a.switchToProfile = true) ∧
         (hookType = HookType.cron ∨ hookType = HookType.postSwitchIn) ∧
         st.isSwitching = false ∧
         ¬(now - st.lastSwitchActionTime < SWITCH_COOLDOWN) ∧
         st.hasHandler = true)) ∧
    ((processHookActions st now result hookType).lastSwitchActionTime =
      if (processHookActions st now result hookType).request.isSome then now
      else st.lastSwitchActionTime) := by
  cases hs : result.success with
  | false => simp [processHookActions, hs]
  | true =>
    cases ha : result.actions with
    | none => simp [processHookActions, hs, ha]
    | some a =>
      cases hookType <;> cases hN : boolTruthy a.switchToNextProfile <;>
        cases hP : strTruthy a.switchToProfile <;> cases hSb : st.isSwitching <;>
        cases hHb : st.hasHandler <;>
        by_cases hC : now - st.lastSwitchActionTime < SWITCH_COOLDOWN <;>
        simp [processHookActions, hs, ha, hN, hP, hSb, hHb, hC]

/-- C3: `syncItem` never reports `synced = true` when `checkAnchor`
returns false for the item's anchor and the disk content that was read;
and when the anchor check is actually reached (anchor valid for the item
type, file read succeeded, json-path pre-parse passed) and fails, the
result is exactly `synced = false` with reason `anchor-mismatch`. -/
theorem syncItem_anchor_gating (parse : String → Option Js) (home : String)
    (fs : FsModel) (item : SyncableItem) (a : AnchorConfig) (content : String)
    (hanchor : item.anchor = some a)
    (hread : fs (resolvePath home item.filePath) = some (Except.ok content)) :
    ((syncItem parse home fs item).synced = true → checkAnchor parse a content = true) ∧
    (isValidAnchorForItem item = true → jsonPrecheckFails parse a content = false →
      checkAnchor parse a content = false →
      syncItem parse home fs item =
        { itemId := item.id, synced := false
          reason := some SyncReason.anchorMismatch }) := by
  have hbranch : checkAnchor parse a content = false →
      (syncItem parse home fs item).synced = false := by
    intro hChk
    simp only [syncItem, hanchor, hread]
    by_cases hV : isValidAnchorForItem item = true
    · rw [if_neg (by simp [hV])]
      by_cases hPre : jsonPrecheckFails parse a content = true
      · rw [if_pos hPre]
      · rw [if_neg hPre, if_pos (by simp [hChk])]
    · have hV' : isValidAnchorForItem item = false := by
        cases h : isValidAnchorForItem item
        · rfl
        · exact absurd h hV
      rw [if_pos (by simp [hV'])]
  constructor
  · intro hsync
    cases hChk : checkAnchor parse a content
    · rw [hbranch hChk] at hsync
      cases hsync
    · rfl
  · intro hV hPre hChk
    simp only [syncItem, hanchor, hread]
    rw [if_neg (by simp [hV]), if_neg (by simp [hPre]), if_pos (by simp [hChk])]

/-- Witness for C3 at a concrete anchored env-var item whose stored
anchor value disagrees with the disk content. -/
theorem syncItem_anchor_gating_witness :
    syncItem (fun _ => none) "/home/u"
      (fun _ => some (Except.ok "export FOO=y"))
      (SyncableItem.envVar "i1" "l" true "FOO" "v" "/tmp/rc"
        (some (AnchorConfig.envValue "FOO" "x"))) =
      { itemId := "i1", synced := false, reason := some SyncReason.anchorMismatch } :=
  (syncItem_anchor_gating (fun _ => none) "/home/u"
      (fun _ => some (Except.ok "export FOO=y"))
      (SyncableItem.envVar "i1" "l" true "FOO" "v" "/tmp/rc"
        (some (AnchorConfig.envValue "FOO" "x")))
      (AnchorConfig.envValue "FOO" "x") "export FOO=y" rfl rfl).2
    (by decide) (by decide) (by decide)

theorem mem_enabled_filter {p : Profile} {q : ConfigItem → Bool} {i : ConfigItem}
    (h : i ∈ (p.items.filter ConfigItem.enabled).filter q) :
    i.enabled = true ∧ i ∈ p.items := by
  have h1 := List.mem_filter.mp h
  have h2 := List.mem_filter.mp h1.1
  exact ⟨h2.2, h2.1⟩

theorem false_eq_true_iff : (false = true) = False := by simp

theorem true_eq_true_iff : (true = true) = True := by simp

/-- C1: `executeSwitch` executes only enabled items of the profile; the
executed items are exactly the file-replace items (in list order, up to
and including the first failure), then — only if no file-replace item
failed — the env-var items under the same rule, then — only if neither
earlier phase failed — the run-command items; the backup is restored
exactly when a file-replace or env-var item failed (the restore flag
does not mention run-command failures at all), and overall success means
no failure in any phase. -/
theorem executeSwitch_phase_discipline (exec : ConfigItem → ItemResult)
    (profile : Profile) :
    (∀ i ∈ (executeSwitch exec profile).executed, i.enabled = true ∧ i ∈ profile.items) ∧
    (executeSwitch exec profile).executed =
      phasePrefix exec
          ((profile.items.filter ConfigItem.enabled).filter ConfigItem.isFileReplace) ++
        (if ((profile.items.filter ConfigItem.enabled).filter ConfigItem.isFileReplace).any
              (fun i => !(exec i).success) = true then []
         else phasePrefix exec
           ((profile.items.filter ConfigItem.enabled).filter ConfigItem.isEnvVar)) ++
        (if (((profile.items.filter ConfigItem.enabled).filter ConfigItem.isFileReplace).any
              (fun i => !(exec i).success) ||
             ((profile.items.filter ConfigItem.enabled).filter ConfigItem.isEnvVar).any
              (fun i => !(exec i).success)) = true then []
         else phasePrefix exec
           ((profile.items.filter ConfigItem.enabled).filter ConfigItem.isRunCommand)) ∧
    (executeSwitch exec profile).restored =
      (((profile.items.filter ConfigItem.enabled).filter ConfigItem.isFileReplace).any
          (fun i => !(exec i).success) ||
       ((profile.items.filter ConfigItem.enabled).filter ConfigItem.isEnvVar).any
          (fun i => !(exec i).success)) ∧
    (executeSwitch exec profile).success =
      !(((profile.items.filter ConfigItem.enabled).filter ConfigItem.isFileReplace).any
          (fun i => !(exec i).success) ||
        ((profile.items.filter ConfigItem.enabled).filter ConfigItem.isEnvVar).any
          (fun i => !(exec i).success) ||
        ((profile.items.filter ConfigItem.enabled).filter ConfigItem.isRunCommand).any
          (fun i => !(exec i).success)) := by
  have heq : (executeSwitch exec profile).executed =
      phasePrefix exec
          ((profile.items.filter ConfigItem.enabled).filter ConfigItem.isFileReplace) ++
        (if ((profile.items.filter ConfigItem.enabled).filter ConfigItem.isFileReplace).any
              (fun i => !(exec i).success) = true then []
         else phasePrefix exec
           ((profile.items.filter ConfigItem.enabled).filter ConfigItem.isEnvVar)) ++
        (if (((profile.items.filter ConfigItem.enabled).filter ConfigItem.isFileReplace).any
              (fun i => !(exec i).success) ||
             ((profile.items.filter ConfigItem.enabled).filter ConfigItem.isEnvVar).any
              (fun i => !(exec i).success)) = true then []
         else phasePrefix exec
           ((profile.items.filter ConfigItem.enabled).filter ConfigItem.isRunCommand)) := by
    simp only [executeSwitch, runPhase_failed, runPhase_executed, phasePrefix,
      apply_ite PhaseRun.failed, apply_ite PhaseRun.executed]
    cases hA : ((profile.items.filter ConfigItem.enabled).filter
        ConfigItem.isFileReplace).any (fun i => !(exec i).success) <;>
      cases hB : ((profile.items.filter ConfigItem.enabled).filter
        ConfigItem.isEnvVar).any (fun i => !(exec i).success) <;>
      simp only [hA, hB, Bool.false_or, Bool.true_or, Bool.or_false, Bool.or_true,
        false_eq_true_iff, true_eq_true_iff, if_true, if_false,
        List.append_nil, List.nil_append]
  have hrest : (executeSwitch exec profile).restored =
      (((profile.items.filter ConfigItem.enabled).filter ConfigItem.isFileReplace).any
          (fun i => !(exec i).success) ||
       ((profile.items.filter ConfigItem.enabled).filter ConfigItem.isEnvVar).any
          (fun i => !(exec i).success)) := by
    simp only [executeSwitch, runPhase_failed, apply_ite PhaseRun.failed]
    cases hA : ((profile.items.filter ConfigItem.enabled).filter
        ConfigItem.isFileReplace).any (fun i => !(exec i).success) <;>
      cases hB : ((profile.items.filter ConfigItem.enabled).filter
        ConfigItem.isEnvVar).any (fun i => !(exec i).success) <;>
      cases hC : ((profile.items.filter ConfigItem.enabled).filter
        ConfigItem.isRunCommand).any (fun i => !(exec i).success) <;>
      simp only [hA, hB, hC, Bool.false_or, Bool.true_or, Bool.or_false, Bool.or_true,
        false_eq_true_iff, true_eq_true_iff, if_true, if_false]
  have hsucc : (executeSwitch exec profile).success =
      !(((profile.items.filter ConfigItem.enabled).filter ConfigItem.isFileReplace).any
          (fun i => !(exec i).success) ||
        ((profile.items.filter ConfigItem.enabled).filter ConfigItem.isEnvVar).any
          (fun i => !(exec i).success) ||
        ((profile.items.filter ConfigItem.enabled).filter ConfigItem.isRunCommand).any
          (fun i => !(exec i).success)) := by
    simp only [executeSwitch, runPhase_failed, apply_ite PhaseRun.failed]
    cases hA : ((profile.items.filter ConfigItem.enabled).filter
        ConfigItem.isFileReplace).any (fun i => !(exec i).success) <;>
      cases hB : ((profile.items.filter ConfigItem.enabled).filter
        ConfigItem.isEnvVar).any (fun i => !(exec i).success) <;>
      cases hC : ((profile.items.filter ConfigItem.enabled).filter
        ConfigItem.isRunCommand).any (fun i => !(exec i).success) <;>
      simp only [hA, hB, hC, Bool.false_or, Bool.true_or, Bool.or_false, Bool.or_true,
        false_eq_true_iff, true_eq_true_iff, if_true, if_false]
  refine ⟨?_, heq, hrest, hsucc⟩
  intro i hi
  rw [heq] at hi
  simp only [phasePrefix] at hi
  rcases List.mem_append.mp hi with hi2 | hiC
  · rcases List.mem_append.mp hi2 with hiA | hiB
    · exact mem_enabled_filter (List.take_subset _ _ hiA)
    · split at hiB
      · simp at hiB
      · exact mem_enabled_filter (List.take_subset _ _ hiB)
  · split at hiC
    · simp at hiC
    · exact mem_enabled_filter (List.take_subset _ _ hiC)

/-- Witness for C1 at a concrete profile and item-execution oracle. -/
theorem executeSwitch_phase_discipline_witness :
    (executeSwitch (fun i => { itemId := i.id, success := true })
        { id := "p", name := "P",
          items := [ConfigItem.fileReplace "f1" "F" true "/t" "c" none,
                    ConfigItem.runCommand "r1" "R" true "cmd" none none] }).restored =
      false := by
  rw [(executeSwitch_phase_discipline (fun i => { itemId := i.id, success := true })
      { id := "p", name := "P",
        items := [ConfigItem.fileReplace "f1" "F" true "/t" "c" none,
                  ConfigItem.runCommand "r1" "R" true "cmd" none none] }).2.2.1]
  decide

/-- Witness for C5 at a concrete honored cron-hook switch request. -/
theorem hookAction_switch_gating_witness :
    (processHookActions ⟨0, false, true⟩ 50000
        ⟨"h1", "quota", true, some ⟨some true, none, none⟩⟩ HookType.cron).request.isSome =
      true :=
  ((hookAction_switch_gating ⟨0, false, true⟩ 50000
      ⟨"h1", "quota", true, some ⟨some true, none, none⟩⟩ HookType.cron).1).mpr
    ⟨rfl, ⟨some true, none, none⟩, rfl, Or.inl rfl, Or.inl rfl, rfl, by decide, rfl⟩

/-- Witness for C6 at a concrete failed switch: the pointer replay keeps
the old active profile. -/
theorem orchestrateSwitch_active_pointer_witness :
    (orchestrateSwitchTrace (some "old") false "new").foldl applyStoreStep (some "old") =
      some "old" := by
  rw [(orchestrateSwitch_active_pointer (some "old") false "new" (some "old")).1]
  decide

/-- Witness for C7 (amended) at a concrete one-key object. -/
theorem checkAnchor_jsonPath_spec_witness :
    checkAnchor (fun _ => some (Js.obj [("k", Js.str "v")]))
        (AnchorConfig.jsonPath "k" "v") "\x7b\"k\":\"v\"\x7d" = true :=
  ((checkAnchor_jsonPath_spec (fun _ => some (Js.obj [("k", Js.str "v")]))
      "k" "v" "\x7b\"k\":\"v\"\x7d").1).mpr
    ⟨Js.obj [("k", Js.str "v")], Js.str "v", rfl, rfl, rfl⟩

end Xoay
